import Mathlib

/-!
Verification of the Dual-APSI intersection engine (`main.go`) against its
specification.

Modelling conventions (shallow embedding):

* The pairing-friendly groups G1 and GT of the pbc library are cyclic of
  prime order; we represent a group element by its discrete logarithm with
  respect to a fixed generator, an element of `ZMod q`.  Under this
  representation the pbc operations become: scalar multiplication
  `MulZn a s = a * s`, pairing `Pair a b = a * b` (the exponent of
  `e(g,g)`), and GT exponentiation `PowZn v r = v * r`.  This is exactly
  the bilinearity law `e(aP, bQ) = e(P,Q)^(ab)` the code relies on.
* SHA-256 over element bytes (`sha256.Sum256(elt[:])`), the pbc
  `SetFromHash` hash-to-group map, and SHA-256 over serialized GT bytes
  (the fingerprint reduction) are opaque deterministic functions; they are
  fields of a `Model` record so that theorems can hypothesise exactly the
  collision-freeness assumptions the specification makes.
* Randomness (`Rand()` on pbc elements, `rand.Read`) is modelled by
  passing the sampled values as explicit arguments.
* Go slices are Lean lists; Go `map[K]bool` used as a set is a Lean list
  queried by membership (insertion order and duplicate inserts are
  irrelevant to membership, matching Go map semantics).
* A Go runtime panic (out-of-range slice index, nil-pointer scalar) is
  modelled by returning `none`; a normal return is `some result`.
* The concurrent strategies are given their sequential denotations: each
  per-element task is a pure function of immutable inputs, the server
  fingerprint map is a set (insert order irrelevant) fully populated at a
  `WaitGroup` barrier before the client pass starts, and the lock-guarded
  appends commute up to permutation of the result list, so the multiset of
  appended elements is schedule-independent; we fix the index-order
  schedule and compare results as multisets (`List.Perm`).
-/

namespace APSI

/-- A raw element: Go `type RawElement [4]byte`. -/
abbrev RawElement := Fin 256 × Fin 256 × Fin 256 × Fin 256

/-- Go `type Party int`; values other than the two declared constants are
representable, as in Go. -/
abbrev Party := Int

/-- Go constant `ClientParty Party = 0`. -/
def ClientParty : Party := 0

/-- Go constant `ServerParty = 1`. -/
def ServerParty : Party := 1

/-- The opaque deterministic hash functions of the pipeline, over a group of
order `q`: `sha` is SHA-256 over an element's raw bytes, `setFromHash` is the
pbc hash-to-group map applied to such a digest (together they form the
hash-to-group function `H`), and `shaGT` is SHA-256 over the serialized bytes
of a GT element (the fingerprint reduction).  They are parameters of the
embedding; collision-freeness is hypothesised per theorem exactly where the
specification assumes it. -/
structure Model (q : ℕ) (δ : Type) (β : Type) where
  sha : RawElement → δ
  setFromHash : δ → ZMod q
  shaGT : ZMod q → β

/-- The hash-to-group value of an element: `SetFromHash(sha256(elt))`,
written in exponent form. -/
def hashToGroup {q : ℕ} {δ β : Type} (M : Model q δ β) (elt : RawElement) : ZMod q :=
  M.setFromHash (M.sha elt)

/-- pbc `c.MulZn(a, s)`: scalar multiplication in G1, in exponent form. -/
def MulZn {q : ℕ} (a s : ZMod q) : ZMod q := a * s

/-- pbc `c.Pair(a, b)`: the bilinear pairing `e`, in exponent form
(`e(aP, bP) = e(P,P)^(a*b)`). -/
def Pair {q : ℕ} (a b : ZMod q) : ZMod q := a * b

/-- pbc `c.PowZn(v, r)`: GT exponentiation, in exponent form. -/
def PowZn {q : ℕ} (v r : ZMod q) : ZMod q := v * r

/-- Go `type DualAPSIScheme struct`: the public parameters and key material.
`params` and `pairingId` stand for the opaque `*pbc.Params` / `*pbc.Pairing`
handles (never inspected by the protocol, only threaded through); the unused
`hash1` field is omitted.  Group elements are in exponent form. -/
structure DualAPSIScheme (q : ℕ) where
  params : ℕ
  pairingId : ℕ
  P : ZMod q
  x : ZMod q
  y : ZMod q
  xP : ZMod q
  yP : ZMod q

/-- Go `NewDualAPSIScheme`: samples `P`, `x`, `y` (here: taken as arguments)
and computes `xP = x·P`, `yP = y·P` via `MulZn`. -/
def NewDualAPSIScheme {q : ℕ} (params pairingId : ℕ) (P x y : ZMod q) : DualAPSIScheme q :=
  ⟨params, pairingId, P, x, y, MulZn P x, MulZn P y⟩

/-- Go `Authorize(elt, party)`: selects the secret key by a `switch` on
`party` (`ClientParty → x`, `ServerParty → y`; any other value leaves
`secretKey` nil, and the subsequent `MulZn` on a nil scalar faults, modelled
as `none`), then returns `secretKey · H(elt)` where
`H = SetFromHash ∘ sha256`. -/
def Authorize {q : ℕ} {δ β : Type} (M : Model q δ β) (scheme : DualAPSIScheme q)
    (elt : RawElement) (party : Party) : Option (ZMod q) :=
  let secretKey : Option (ZMod q) :=
    if party = ClientParty then some scheme.x
    else if party = ServerParty then some scheme.y
    else none
  match secretKey with
  | none => none
  | some k => some (MulZn (hashToGroup M elt) k)

/-- The server pass shared by `Interaction`, `ThreadedInteraction`,
`SmarterThreadedInteraction` and `AtomicsThreadedInteraction`: for every
server signature σ (each is processed exactly once in every strategy),
compute `e(σ, rxP)` and reduce it to a fingerprint.  The Go `map` it is
stored in is queried only by membership, so a list represents it. -/
def serverFingerprints {q : ℕ} {δ β : Type} (M : Model q δ β) (rxP : ZMod q)
    (serverSignatures : List (ZMod q)) : List β :=
  serverSignatures.map (fun σ => M.shaGT (Pair σ rxP))

/-- The client pass of `Interaction`, `ThreadedInteraction` and
`PrecomputeThreadedInteraction`: iterate over the client signatures with
their indices (`for i, clientSignature := range clientSignatures`); on a
fingerprint hit, read `clientSet[i]` (an out-of-range index panics: `none`)
and append it. -/
def clientPass {q : ℕ} {δ β : Type} [DecidableEq β] (M : Model q δ β)
    (serverHashes : List β) (ryP : ZMod q) (clientSet : List RawElement) :
    List (ZMod q) → ℕ → Option (List RawElement)
  | [], _ => some []
  | σ :: rest, i =>
    if M.shaGT (Pair σ ryP) ∈ serverHashes then
      match clientSet[i]? with
      | none => none
      | some c =>
        match clientPass M serverHashes ryP clientSet rest (i + 1) with
        | none => none
        | some l => some (c :: l)
    else clientPass M serverHashes ryP clientSet rest (i + 1)

/-- Go `Interaction`: sample `r` (argument), compute `rxP = r·xP`,
`ryP = r·yP`, build the server fingerprint set, then run the client pass.
`serverSet` is accepted but never read, as in the source.  No length
validation is performed anywhere. -/
def Interaction {q : ℕ} {δ β : Type} [DecidableEq β] (M : Model q δ β)
    (scheme : DualAPSIScheme q)
    (clientSet : List RawElement) (clientSignatures : List (ZMod q))
    (serverSet : List RawElement) (serverSignatures : List (ZMod q))
    (r : ZMod q) : Option (List RawElement) :=
  let rxP := MulZn scheme.xP r
  let ryP := MulZn scheme.yP r
  let serverHashes := serverFingerprints M rxP serverSignatures
  clientPass M serverHashes ryP clientSet clientSignatures 0

/-- Go `ThreadedInteraction`: one goroutine per element.  Each server task
inserts one fingerprint into the lock-guarded map (insert order irrelevant to
a set) and the `WaitGroup` barrier completes the map before the client pass;
each client task performs the same per-index computation as the sequential
loop, appending `clientSet[index]` under the lock.  Its sequential
denotation therefore coincides with `Interaction` for the same `r`. -/
def ThreadedInteraction {q : ℕ} {δ β : Type} [DecidableEq β] (M : Model q δ β)
    (scheme : DualAPSIScheme q)
    (clientSet : List RawElement) (clientSignatures : List (ZMod q))
    (serverSet : List RawElement) (serverSignatures : List (ZMod q))
    (r : ZMod q) : Option (List RawElement) :=
  let rxP := MulZn scheme.xP r
  let ryP := MulZn scheme.yP r
  let serverHashes := serverFingerprints M rxP serverSignatures
  clientPass M serverHashes ryP clientSet clientSignatures 0

/-- The client pass of `SmarterThreadedInteraction` and
`AtomicsThreadedInteraction`: identical per-element work, except that on a
hit the code appends `clientSet[0]` (the literal index 0 — the TODO
placeholder in the source) instead of the element at the triggering index. -/
def smarterClientPass {q : ℕ} {δ β : Type} [DecidableEq β] (M : Model q δ β)
    (serverHashes : List β) (ryP : ZMod q) (clientSet : List RawElement) :
    List (ZMod q) → Option (List RawElement)
  | [] => some []
  | σ :: rest =>
    if M.shaGT (Pair σ ryP) ∈ serverHashes then
      match clientSet[0]? with
      | none => none
      | some c =>
        match smarterClientPass M serverHashes ryP clientSet rest with
        | none => none
        | some l => some (c :: l)
    else smarterClientPass M serverHashes ryP clientSet rest

/-- Go `SmarterThreadedInteraction`: `numThreads` workers drain a pre-loaded,
closed channel holding every signature; with at least one worker every
signature is processed exactly once, so the sequential denotation processes
the signature list in order (with no workers, i.e. `numThreads = 0`, the
channel is never drained and both passes contribute nothing). -/
def SmarterThreadedInteraction {q : ℕ} {δ β : Type} [DecidableEq β] (M : Model q δ β)
    (scheme : DualAPSIScheme q)
    (clientSet : List RawElement) (clientSignatures : List (ZMod q))
    (serverSet : List RawElement) (serverSignatures : List (ZMod q))
    (r : ZMod q) (numThreads : ℕ) : Option (List RawElement) :=
  if numThreads = 0 then some [] else
  let rxP := MulZn scheme.xP r
  let ryP := MulZn scheme.yP r
  let serverHashes := serverFingerprints M rxP serverSignatures
  smarterClientPass M serverHashes ryP clientSet clientSignatures

/-- Go `AtomicsThreadedInteraction`: `numThreads` workers claim indices
`0, 1, …` via an atomically incremented counter until it reaches the array
length; with at least one worker every index is claimed exactly once, so the
sequential denotation processes the signature list in index order.  Like
`SmarterThreadedInteraction` it appends the `clientSet[0]` placeholder on a
hit. -/
def AtomicsThreadedInteraction {q : ℕ} {δ β : Type} [DecidableEq β] (M : Model q δ β)
    (scheme : DualAPSIScheme q)
    (clientSet : List RawElement) (clientSignatures : List (ZMod q))
    (serverSet : List RawElement) (serverSignatures : List (ZMod q))
    (r : ZMod q) (numThreads : ℕ) : Option (List RawElement) :=
  if numThreads = 0 then some [] else
  let rxP := MulZn scheme.xP r
  let ryP := MulZn scheme.yP r
  let serverHashes := serverFingerprints M rxP serverSignatures
  smarterClientPass M serverHashes ryP clientSet clientSignatures

/-- Go `DivisionThreadedInteraction`, range start for worker `k` over `n`
elements and `N` workers: `int(math.Ceil(float64(n)/float64(N) * float64(k)))`,
i.e. `⌈n·k/N⌉`, idealising the float64 arithmetic as exact ceiling
arithmetic (exact for the small operands considered here). -/
def divisionStart (n N k : ℕ) : ℕ := (n * k + (N - 1)) / N

/-- The per-worker chunk size `⌈n/N⌉`; since `start` is an integer,
`int(math.Ceil(float64(start) + n/N)) = start + ⌈n/N⌉`. -/
def divisionChunk (n N : ℕ) : ℕ := (n + (N - 1)) / N

/-- Range end for worker `k`: `start + ⌈n/N⌉` clamped to `n`
(`if end > numElts { end = numElts }`). -/
def divisionEnd (n N k : ℕ) : ℕ := min (divisionStart n N k + divisionChunk n N) n

/-- The server pass of `DivisionThreadedInteraction`: worker `k` processes
`serverSignatures[i]` for `i ∈ [start_k, end_k)` (always in range since
`end_k ≤ n`), inserting fingerprints into the shared set; the slice
`drop start · take (end − start)` is exactly that index range. -/
def divServerFingerprints {q : ℕ} {δ β : Type} (M : Model q δ β) (rxP : ZMod q)
    (serverSignatures : List (ZMod q)) (N : ℕ) : List β :=
  let n := serverSignatures.length
  (List.range N).flatMap (fun k =>
    ((serverSignatures.drop (divisionStart n N k)).take
        (divisionEnd n N k - divisionStart n N k)).map
      (fun σ => M.shaGT (Pair σ rxP)))

/-- One worker's client loop in `DivisionThreadedInteraction`: indices
`i, i+1, …` for `fuel = end − i` iterations; `clientSignatures[i]` is always
in range at every call site (`end ≤ len(clientSignatures)`), while
`clientSet[i]` is read only on a hit and panics (`none`) out of range. -/
def divClientRange {q : ℕ} {δ β : Type} [DecidableEq β] (M : Model q δ β)
    (serverHashes : List β) (ryP : ZMod q) (clientSet : List RawElement)
    (clientSignatures : List (ZMod q)) : ℕ → ℕ → Option (List RawElement)
  | _, 0 => some []
  | i, fuel + 1 =>
    if M.shaGT (Pair (clientSignatures.getD i 0) ryP) ∈ serverHashes then
      match clientSet[i]? with
      | none => none
      | some c =>
        match divClientRange M serverHashes ryP clientSet clientSignatures (i + 1) fuel with
        | none => none
        | some l => some (c :: l)
    else divClientRange M serverHashes ryP clientSet clientSignatures (i + 1) fuel

/-- The per-worker loop of `DivisionThreadedInteraction`'s client pass over a
list of worker numbers, concatenating the per-worker results. -/
def divClientThreads {q : ℕ} {δ β : Type} [DecidableEq β] (M : Model q δ β)
    (serverHashes : List β) (ryP : ZMod q) (clientSet : List RawElement)
    (clientSignatures : List (ZMod q)) (n N : ℕ) : List ℕ → Option (List RawElement)
  | [] => some []
  | k :: ks =>
    match divClientRange M serverHashes ryP clientSet clientSignatures
        (divisionStart n N k) (divisionEnd n N k - divisionStart n N k),
      divClientThreads M serverHashes ryP clientSet clientSignatures n N ks with
    | some l, some ls => some (l ++ ls)
    | _, _ => none

/-- The client pass of `DivisionThreadedInteraction`: every worker `k < N`
runs its index range; the lock-guarded appends interleave, permuting the
result list only, so the sequential denotation concatenates the per-worker
results in worker order. -/
def divClientAll {q : ℕ} {δ β : Type} [DecidableEq β] (M : Model q δ β)
    (serverHashes : List β) (ryP : ZMod q) (clientSet : List RawElement)
    (clientSignatures : List (ZMod q)) (N : ℕ) : Option (List RawElement) :=
  divClientThreads M serverHashes ryP clientSet clientSignatures
    clientSignatures.length N (List.range N)

/-- Go `DivisionThreadedInteraction`: `numThreads` workers, each given a
contiguous index range computed by the ceiling arithmetic above (with
`numThreads = 0` no goroutine is launched and both passes contribute
nothing). -/
def DivisionThreadedInteraction {q : ℕ} {δ β : Type} [DecidableEq β] (M : Model q δ β)
    (scheme : DualAPSIScheme q)
    (clientSet : List RawElement) (clientSignatures : List (ZMod q))
    (serverSet : List RawElement) (serverSignatures : List (ZMod q))
    (r : ZMod q) (numThreads : ℕ) : Option (List RawElement) :=
  if numThreads = 0 then some [] else
  let rxP := MulZn scheme.xP r
  let ryP := MulZn scheme.yP r
  let serverHashes := divServerFingerprints M rxP serverSignatures numThreads
  divClientAll M serverHashes ryP clientSet clientSignatures numThreads

/-- The offline phase of `PrecomputeThreadedInteraction`: one goroutine per
server signature computes `e(σ, xP)` (independent of `r`); the lock-guarded
appends only permute the list, and it is consumed as a set, so the
sequential denotation maps in order. -/
def precomputePairedSignatures {q : ℕ} (scheme : DualAPSIScheme q)
    (serverSignatures : List (ZMod q)) : List (ZMod q) :=
  serverSignatures.map (fun σ => Pair σ scheme.xP)

/-- The online server pass of `PrecomputeThreadedInteraction`: each paired
signature is raised to `r` by `PowZn` and reduced to a fingerprint. -/
def precomputeFingerprints {q : ℕ} {δ β : Type} (M : Model q δ β) (r : ZMod q)
    (pairedSignatures : List (ZMod q)) : List β :=
  pairedSignatures.map (fun v => M.shaGT (PowZn v r))

/-- Go `PrecomputeThreadedInteraction`: offline phase pairs every server
signature with `xP`; online phase samples `r` (argument), computes
`ryP = r·yP`, exponentiates each paired signature by `r` into the
fingerprint set, then runs the same client pass as `ThreadedInteraction`
(this variant appends `clientSet[index]` at the true index). -/
def PrecomputeThreadedInteraction {q : ℕ} {δ β : Type} [DecidableEq β] (M : Model q δ β)
    (scheme : DualAPSIScheme q)
    (clientSet : List RawElement) (clientSignatures : List (ZMod q))
    (serverSet : List RawElement) (serverSignatures : List (ZMod q))
    (r : ZMod q) : Option (List RawElement) :=
  let pairedSignatures := precomputePairedSignatures scheme serverSignatures
  let ryP := MulZn scheme.yP r
  let serverHashes := precomputeFingerprints M r pairedSignatures
  clientPass M serverHashes ryP clientSet clientSignatures 0

/-- Go `findInsecureIntersection`: build a lookup table from the client set,
then append each server element found in it, in server-set order. -/
def findInsecureIntersection (clientSet serverSet : List RawElement) : List RawElement :=
  serverSet.filter (fun element => element ∈ clientSet)

/-- The loop body of Go `removeDuplicateValues`: `keys` is the
`map[RawElement]bool` of already-seen elements (queried by membership) and
`list` is the output slice being appended to. -/
def removeDupGo (keys list : List RawElement) : List RawElement → List RawElement
  | [] => list
  | entry :: rest =>
    if entry ∈ keys then removeDupGo keys list rest
    else removeDupGo (entry :: keys) (list ++ [entry]) rest

/-- Go `removeDuplicateValues`: fold over the input with an initially empty
seen-set and output slice. -/
def removeDuplicateValues (elementSlice : List RawElement) : List RawElement :=
  removeDupGo [] [] elementSlice

/-- Go `generateRandomSet`: fills `size` elements from the process RNG
(modelled as the explicit input `raw`), then deduplicates before any
cryptographic work. -/
def generateRandomSet (raw : List RawElement) : List RawElement :=
  removeDuplicateValues raw

/-- The specification-side characterisation of deduplication: keep the first
occurrence of each element, in order of first occurrence (stated from the
spec words "contains each distinct element of the input exactly once, in
order of first occurrence", for comparison with `removeDuplicateValues`). -/
def firstOccurrenceDedup : List RawElement → List RawElement
  | [] => []
  | a :: l => a :: firstOccurrenceDedup (l.filter (fun b => b ≠ a))
  termination_by l => l.length
  decreasing_by
    simp only [List.length_cons]
    exact Nat.lt_succ_of_le (List.length_filter_le _ _)

/-- The mutable state visible to a caller across a call: the scheme record
plus the caller's element slices and signature arrays.  Every write in the
Go bodies targets a per-call fresh pbc element (`NewZr`/`NewG1`/`NewGT`
results: `r`, `rxP`, `ryP`, `H_elt`, `xH_elt`, the per-task temporaries) or
a function-local slice/map, never a field of the scheme or a cell of the
caller's arrays; the stateful wrappers below make that explicit by threading
this record through each operation. -/
structure InteractionState (q : ℕ) where
  scheme : DualAPSIScheme q
  clientSet : List RawElement
  clientSignatures : List (ZMod q)
  serverSet : List RawElement
  serverSignatures : List (ZMod q)

/-- `Authorize` as a state transformer: reads `scheme.x`/`scheme.y`, writes
only the fresh locals `H_elt` and `xH_elt`. -/
def AuthorizeSt {q : ℕ} {δ β : Type} (M : Model q δ β) (st : InteractionState q)
    (elt : RawElement) (party : Party) : InteractionState q × Option (ZMod q) :=
  (st, Authorize M st.scheme elt party)

/-- `Interaction` as a state transformer. -/
def InteractionSt {q : ℕ} {δ β : Type} [DecidableEq β] (M : Model q δ β)
    (st : InteractionState q) (r : ZMod q) :
    InteractionState q × Option (List RawElement) :=
  (st, Interaction M st.scheme st.clientSet st.clientSignatures st.serverSet
    st.serverSignatures r)

/-- `ThreadedInteraction` as a state transformer. -/
def ThreadedInteractionSt {q : ℕ} {δ β : Type} [DecidableEq β] (M : Model q δ β)
    (st : InteractionState q) (r : ZMod q) :
    InteractionState q × Option (List RawElement) :=
  (st, ThreadedInteraction M st.scheme st.clientSet st.clientSignatures st.serverSet
    st.serverSignatures r)

/-- `SmarterThreadedInteraction` as a state transformer. -/
def SmarterThreadedInteractionSt {q : ℕ} {δ β : Type} [DecidableEq β] (M : Model q δ β)
    (st : InteractionState q) (r : ZMod q) (numThreads : ℕ) :
    InteractionState q × Option (List RawElement) :=
  (st, SmarterThreadedInteraction M st.scheme st.clientSet st.clientSignatures st.serverSet
    st.serverSignatures r numThreads)

/-- `AtomicsThreadedInteraction` as a state transformer. -/
def AtomicsThreadedInteractionSt {q : ℕ} {δ β : Type} [DecidableEq β] (M : Model q δ β)
    (st : InteractionState q) (r : ZMod q) (numThreads : ℕ) :
    InteractionState q × Option (List RawElement) :=
  (st, AtomicsThreadedInteraction M st.scheme st.clientSet st.clientSignatures st.serverSet
    st.serverSignatures r numThreads)

/-- `DivisionThreadedInteraction` as a state transformer. -/
def DivisionThreadedInteractionSt {q : ℕ} {δ β : Type} [DecidableEq β] (M : Model q δ β)
    (st : InteractionState q) (r : ZMod q) (numThreads : ℕ) :
    InteractionState q × Option (List RawElement) :=
  (st, DivisionThreadedInteraction M st.scheme st.clientSet st.clientSignatures st.serverSet
    st.serverSignatures r numThreads)

/-- `PrecomputeThreadedInteraction` as a state transformer. -/
def PrecomputeThreadedInteractionSt {q : ℕ} {δ β : Type} [DecidableEq β] (M : Model q δ β)
    (st : InteractionState q) (r : ZMod q) :
    InteractionState q × Option (List RawElement) :=
  (st, PrecomputeThreadedInteraction M st.scheme st.clientSet st.clientSignatures st.serverSet
    st.serverSignatures r)

/-- A concrete element for witness computations: first byte `i`, rest zero. -/
def wElt (i : Fin 256) : RawElement := (i, 0, 0, 0)

/-- A concrete instantiation of the opaque hashes over `ZMod 11` for witness
computations: the element hash reads the first byte, the other two hashes
are the identity. -/
def wModel : Model 11 (ZMod 11) (ZMod 11) :=
  ⟨fun e => (e.1.val : ZMod 11), id, id⟩

/-- A concrete scheme for witness computations: `P = x = y = 1`. -/
def wScheme : DualAPSIScheme 11 := NewDualAPSIScheme 0 0 1 1 1

/-! ## Helper lemmas -/

/-- With an empty server fingerprint set the client pass never hits, never
reads `clientSet`, and returns the empty intersection. -/
lemma clientPass_nil_hashes {q : ℕ} {δ β : Type} [DecidableEq β] (M : Model q δ β)
    (ryP : ZMod q) (clientSet : List RawElement) :
    ∀ (sigs : List (ZMod q)) (i : ℕ), clientPass M [] ryP clientSet sigs i = some [] := by
  intro sigs
  induction sigs with
  | nil => intro i; rfl
  | cons σ rest ih => intro i; simp [clientPass, ih]

/-- With an empty server fingerprint set the placeholder client pass also
returns the empty intersection without reading `clientSet`. -/
lemma smarterClientPass_nil_hashes {q : ℕ} {δ β : Type} [DecidableEq β] (M : Model q δ β)
    (ryP : ZMod q) (clientSet : List RawElement) :
    ∀ (sigs : List (ZMod q)), smarterClientPass M [] ryP clientSet sigs = some [] := by
  intro sigs
  induction sigs with
  | nil => rfl
  | cons σ rest ih => simp [smarterClientPass, ih]

/-- With an empty server fingerprint set a division worker range never hits
and returns the empty intersection. -/
lemma divClientRange_nil_hashes {q : ℕ} {δ β : Type} [DecidableEq β] (M : Model q δ β)
    (ryP : ZMod q) (clientSet : List RawElement) (clientSignatures : List (ZMod q)) :
    ∀ (fuel i : ℕ), divClientRange M [] ryP clientSet clientSignatures i fuel = some [] := by
  intro fuel
  induction fuel with
  | zero => intro i; rfl
  | succ fuel ih => intro i; simp [divClientRange, ih]

/-- With an empty server fingerprint set the whole division client pass
returns the empty intersection. -/
lemma divClientThreads_nil_hashes {q : ℕ} {δ β : Type} [DecidableEq β] (M : Model q δ β)
    (ryP : ZMod q) (clientSet : List RawElement) (clientSignatures : List (ZMod q))
    (n N : ℕ) :
    ∀ (ks : List ℕ),
      divClientThreads M [] ryP clientSet clientSignatures n N ks = some [] := by
  intro ks
  induction ks with
  | nil => rfl
  | cons k ks ih => simp [divClientThreads, ih, divClientRange_nil_hashes]

/-- With no client signatures every division worker range is empty, so the
division client pass returns the empty intersection. -/
lemma divClientThreads_nil_sigs {q : ℕ} {δ β : Type} [DecidableEq β] (M : Model q δ β)
    (serverHashes : List β) (ryP : ZMod q) (clientSet : List RawElement) (N : ℕ) :
    ∀ (ks : List ℕ),
      divClientThreads M serverHashes ryP clientSet [] 0 N ks = some [] := by
  intro ks
  induction ks with
  | nil => rfl
  | cons k ks ih => simp [divClientThreads, ih, divisionEnd, divClientRange]

/-- With no server signatures the division server pass contributes no
fingerprint. -/
lemma divServerFingerprints_nil {q : ℕ} {δ β : Type} (M : Model q δ β) (rxP : ZMod q)
    (N : ℕ) : divServerFingerprints M rxP [] N = [] := by
  simp [divServerFingerprints]

/-- Membership in the output of the `removeDuplicateValues` loop: an element
is in the output iff it was already in the accumulated output or occurs in
the remaining input and is not yet marked seen. -/
lemma mem_removeDupGo :
    ∀ (rest keys list : List RawElement) (a : RawElement),
      a ∈ removeDupGo keys list rest ↔ a ∈ list ∨ (a ∈ rest ∧ a ∉ keys) := by
  intro rest
  induction rest with
  | nil => intro keys list a; simp [removeDupGo]
  | cons entry rest ih =>
    intro keys list a
    by_cases h : entry ∈ keys
    · rw [removeDupGo, if_pos h, ih]
      have hak : a = entry → a ∈ keys := fun he => he ▸ h
      simp only [List.mem_cons]
      tauto
    · rw [removeDupGo, if_neg h, ih]
      simp only [List.mem_append, List.mem_cons, List.mem_singleton]
      by_cases he : a = entry
      · subst he; tauto
      · tauto

/-- The `removeDuplicateValues` loop preserves the invariant that the output
is duplicate-free, provided everything already emitted is marked seen. -/
lemma nodup_removeDupGo :
    ∀ (rest keys list : List RawElement), list.Nodup → (∀ a ∈ list, a ∈ keys) →
      (removeDupGo keys list rest).Nodup := by
  intro rest
  induction rest with
  | nil => intro keys list hnd _; exact hnd
  | cons entry rest ih =>
    intro keys list hnd hsub
    by_cases h : entry ∈ keys
    · rw [removeDupGo, if_pos h]; exact ih keys list hnd hsub
    · rw [removeDupGo, if_neg h]
      have hentry : entry ∉ list := fun hm => h (hsub entry hm)
      refine ih (entry :: keys) (list ++ [entry]) ?_ ?_
      · simp [List.nodup_append, hnd, hentry]
      · intro a ha
        rcases List.mem_append.mp ha with ha | ha
        · exact List.mem_cons_of_mem _ (hsub a ha)
        · simp only [List.mem_singleton] at ha
          exact ha ▸ List.mem_cons_self _ _

/-- The `removeDuplicateValues` loop emits, after the already-accumulated
output, exactly the first occurrence of each not-yet-seen element, in first
occurrence order. -/
lemma removeDupGo_eq_firstOccurrenceDedup :
    ∀ (rest keys list : List RawElement),
      removeDupGo keys list rest
        = list ++ firstOccurrenceDedup (rest.filter (fun b => b ∉ keys)) := by
  intro rest
  induction rest with
  | nil => intro keys list; simp [removeDupGo, firstOccurrenceDedup]
  | cons entry rest ih =>
    intro keys list
    by_cases h : entry ∈ keys
    · rw [removeDupGo, if_pos h, ih]
      simp [List.filter_cons, h]
    · rw [removeDupGo, if_neg h, ih]
      have hfentry : (entry :: rest).filter (fun b => decide (b ∉ keys))
          = entry :: rest.filter (fun b => decide (b ∉ keys)) := by
        simp [List.filter_cons, h]
      rw [hfentry, firstOccurrenceDedup]
      have hff : (rest.filter (fun b => decide (b ∉ keys))).filter
            (fun b => decide (b ≠ entry))
          = rest.filter (fun b => decide (b ∉ entry :: keys)) := by
        rw [List.filter_filter]
        refine List.filter_congr ?_
        intro b _
        by_cases h1 : b = entry <;> by_cases h2 : b ∈ keys <;> simp [h1, h2]
      rw [← hff]
      simp

/-- C8: `removeDuplicateValues` (applied by `generateRandomSet` before any
signing) returns the input's distinct elements, each exactly once, in order
of first occurrence (`firstOccurrenceDedup` is that order, stated from the
spec), with no element absent from the input. -/
theorem removeDuplicateValues_first_occurrence (l : List RawElement) :
    removeDuplicateValues l = firstOccurrenceDedup l
      ∧ (removeDuplicateValues l).Nodup
      ∧ (∀ a, a ∈ removeDuplicateValues l ↔ a ∈ l)
      ∧ generateRandomSet l = removeDuplicateValues l := by
  refine ⟨?_, ?_, ?_, rfl⟩
  · rw [removeDuplicateValues, removeDupGo_eq_firstOccurrenceDedup]
    simp
  · exact nodup_removeDupGo l [] [] List.nodup_nil (by simp)
  · intro a
    rw [removeDuplicateValues, mem_removeDupGo]
    simp

/-- The client pass completes (no out-of-range fault) whenever every index it
can touch is a valid index of the client set. -/
lemma clientPass_isSome {q : ℕ} {δ β : Type} [DecidableEq β] (M : Model q δ β)
    (serverHashes : List β) (ryP : ZMod q) (clientSet : List RawElement) :
    ∀ (sigs : List (ZMod q)) (i : ℕ), i + sigs.length ≤ clientSet.length →
      (clientPass M serverHashes ryP clientSet sigs i).isSome := by
  intro sigs
  induction sigs with
  | nil => intro i _; rfl
  | cons σ rest ih =>
    intro i h
    simp only [List.length_cons] at h
    have hi : i < clientSet.length := by omega
    have hrec := ih (i + 1) (by omega)
    simp only [clientPass]
    by_cases hhit : M.shaGT (Pair σ ryP) ∈ serverHashes
    · rw [if_pos hhit, List.getElem?_eq_getElem hi]
      cases hc : clientPass M serverHashes ryP clientSet rest (i + 1) with
      | none => rw [hc] at hrec; simp at hrec
      | some out => simp [hc]
    · rw [if_neg hhit]; exact hrec

/-- C4 (amended): `Interaction` performs no length validation at all;
whenever `len(clientSignatures) ≤ len(clientSet)` the call runs to completion
and produces a result, regardless of any mismatch on either side (the server
set length is never consulted). -/
theorem interaction_completes_within_bounds {q : ℕ} {δ β : Type} [DecidableEq β]
    (M : Model q δ β) (scheme : DualAPSIScheme q)
    (clientSet : List RawElement) (clientSignatures : List (ZMod q))
    (serverSet : List RawElement) (serverSignatures : List (ZMod q)) (r : ZMod q)
    (hlen : clientSignatures.length ≤ clientSet.length) :
    (Interaction M scheme clientSet clientSignatures serverSet serverSignatures
      r).isSome := by
  exact clientPass_isSome M _ _ clientSet clientSignatures 0 (by omega)

/-- C4 amended witness: with one client signature against a two-element
client set (and an empty server side) the call completes. -/
theorem interaction_completes_within_bounds_witness :
    ([(1 : ZMod 11)] : List (ZMod 11)).length ≤ ([wElt 1, wElt 2] : List RawElement).length
      ∧ (Interaction wModel wScheme [wElt 1, wElt 2] [1] [] [] 1).isSome :=
  ⟨by decide,
   interaction_completes_within_bounds wModel wScheme [wElt 1, wElt 2] [1] [] [] 1
     (by decide)⟩

/-- C4 counterexample: with mismatched lengths (two client elements, one
client signature) `Interaction` is not rejected — it runs and produces a
result. -/
theorem interaction_no_length_rejection_cex :
    ([wElt 1, wElt 2] : List RawElement).length ≠ ([(1 : ZMod 11)] : List (ZMod 11)).length
      ∧ Interaction wModel wScheme [wElt 1, wElt 2] [1] [] [] 1 = some [] := by
  exact ⟨by decide, by decide⟩

/-! ## Claim theorems -/

/-- When the signature array is index-aligned with the element list
(`sigs = map f clientSet`), the client pass never faults and returns the
elements whose fingerprint hits, in order. -/
lemma clientPass_map {q : ℕ} {δ β : Type} [DecidableEq β] (M : Model q δ β)
    (serverHashes : List β) (ryP : ZMod q) (f : RawElement → ZMod q) :
    ∀ (cs pre : List RawElement),
      clientPass M serverHashes ryP (pre ++ cs) (cs.map f) pre.length
        = some (cs.filter (fun c => M.shaGT (Pair (f c) ryP) ∈ serverHashes)) := by
  intro cs
  induction cs with
  | nil => intro pre; rfl
  | cons c cs ih =>
    intro pre
    have hget : (pre ++ c :: cs)[pre.length]? = some c := by
      rw [List.getElem?_append_right (Nat.le_refl _)]
      simp
    have hrec : clientPass M serverHashes ryP (pre ++ c :: cs) (cs.map f) (pre.length + 1)
        = some (cs.filter (fun c => M.shaGT (Pair (f c) ryP) ∈ serverHashes)) := by
      have h1 : pre ++ c :: cs = (pre ++ [c]) ++ cs := by simp
      have h2 : pre.length + 1 = (pre ++ [c]).length := by simp
      rw [h1, h2]
      exact ih (pre ++ [c])
    by_cases hhit : M.shaGT (Pair (f c) ryP) ∈ serverHashes
    · simp [clientPass, hhit, hget, hrec, List.filter_cons]
    · simp [clientPass, hhit, hrec, List.filter_cons]

/-- C2: under index-aligned signatures of the same scheme over deduplicated
sets, with the bilinearity of the pairing (built into the exponent model), a
collision-free fingerprint reduction, a hash-to-group map injective on the
inputs, and a nondegenerate blinding product `P·x·y·r`, the sequential
`Interaction` returns exactly the original client elements whose value occurs
in the server set, in client order — a list multiset-equal to the plaintext
intersection of `findInsecureIntersection`. -/
theorem interaction_matches_insecure_oracle {q : ℕ} {δ β : Type} [DecidableEq β]
    (M : Model q δ β) (s : DualAPSIScheme q)
    (clientSet serverSet : List RawElement)
    (clientSignatures serverSignatures : List (ZMod q)) (r : ZMod q)
    (hxP : s.xP = MulZn s.P s.x) (hyP : s.yP = MulZn s.P s.y)
    (hcs : clientSignatures = clientSet.map (fun c => MulZn (hashToGroup M c) s.x))
    (hss : serverSignatures = serverSet.map (fun e => MulZn (hashToGroup M e) s.y))
    (hndc : clientSet.Nodup) (hnds : serverSet.Nodup)
    (hinj : ∀ a ∈ clientSet ++ serverSet, ∀ b ∈ clientSet ++ serverSet,
        hashToGroup M a = hashToGroup M b → a = b)
    (hfp : Function.Injective M.shaGT)
    (hunit : IsUnit (s.P * s.x * s.y * r)) :
    Interaction M s clientSet clientSignatures serverSet serverSignatures r
        = some (clientSet.filter (fun c => c ∈ serverSet))
      ∧ List.Perm (clientSet.filter (fun c => c ∈ serverSet))
        (findInsecureIntersection clientSet serverSet) := by
  subst hcs hss
  constructor
  · show clientPass M _ _ clientSet _ 0 = _
    have hcp := clientPass_map M
      (serverFingerprints M (MulZn s.xP r)
        (serverSet.map (fun e => MulZn (hashToGroup M e) s.y)))
      (MulZn s.yP r) (fun c => MulZn (hashToGroup M c) s.x) clientSet []
    simp only [List.nil_append, List.length_nil] at hcp
    rw [hcp]
    refine congrArg some (List.filter_congr ?_)
    intro c hc
    have hval : Pair (MulZn (hashToGroup M c) s.x) (MulZn s.yP r)
        = s.P * s.x * s.y * r * hashToGroup M c := by
      simp only [Pair, MulZn, hyP]
      ring
    have hserver : serverFingerprints M (MulZn s.xP r)
          (serverSet.map (fun e => MulZn (hashToGroup M e) s.y))
        = serverSet.map (fun e => M.shaGT (s.P * s.x * s.y * r * hashToGroup M e)) := by
      simp only [serverFingerprints, List.map_map]
      refine List.map_congr_left ?_
      intro e _
      simp only [Function.comp_apply, Pair, MulZn, hxP]
      congr 1
      ring
    have hiff : M.shaGT (Pair (MulZn (hashToGroup M c) s.x) (MulZn s.yP r))
          ∈ serverFingerprints M (MulZn s.xP r)
            (serverSet.map (fun e => MulZn (hashToGroup M e) s.y))
        ↔ c ∈ serverSet := by
      rw [hval, hserver]
      constructor
      · intro hm
        rcases List.mem_map.mp hm with ⟨e, he, heq⟩
        have h1 : s.P * s.x * s.y * r * hashToGroup M e
            = s.P * s.x * s.y * r * hashToGroup M c := hfp heq
        have h2 : hashToGroup M e = hashToGroup M c := hunit.mul_left_cancel h1
        have h3 : e = c := hinj e (by simp [he]) c (by simp [hc]) h2
        exact h3 ▸ he
      · intro hm
        exact List.mem_map.mpr ⟨c, hm, rfl⟩
    exact decide_eq_decide.mpr hiff
  · refine List.perm_of_nodup_nodup_toFinset_eq (hndc.filter _) (hnds.filter _) ?_
    ext a
    simp only [List.mem_toFinset, List.mem_filter, findInsecureIntersection,
      decide_eq_true_eq]
    exact ⟨fun ⟨h1, h2⟩ => ⟨h2, h1⟩, fun ⟨h1, h2⟩ => ⟨h2, h1⟩⟩

/-- A concrete client set for witness computations. -/
def wClientSet : List RawElement := [wElt 1, wElt 2]

/-- A concrete server set for witness computations, overlapping `wClientSet`
in `wElt 2`. -/
def wServerSet : List RawElement := [wElt 2, wElt 3]

/-- Client signatures index-aligned with `wClientSet`, as `Authorize`
produces them. -/
def wClientSigs : List (ZMod 11) :=
  wClientSet.map (fun c => MulZn (hashToGroup wModel c) wScheme.x)

/-- Server signatures index-aligned with `wServerSet`, as `Authorize`
produces them. -/
def wServerSigs : List (ZMod 11) :=
  wServerSet.map (fun e => MulZn (hashToGroup wModel e) wScheme.y)

/-- C2 witness: on the concrete overlapping sets the sequential interaction
returns exactly the common element, multiset-equal to the plaintext
oracle. -/
theorem interaction_matches_insecure_oracle_witness :
    Interaction wModel wScheme wClientSet wClientSigs wServerSet wServerSigs 1
        = some (wClientSet.filter (fun c => c ∈ wServerSet))
      ∧ List.Perm (wClientSet.filter (fun c => c ∈ wServerSet))
        (findInsecureIntersection wClientSet wServerSet) :=
  interaction_matches_insecure_oracle wModel wScheme wClientSet wServerSet
    wClientSigs wServerSigs 1 rfl rfl rfl rfl (by decide) (by decide)
    (by intro a ha b hb; fin_cases ha <;> fin_cases hb <;> decide)
    (fun _ _ h => h) (isUnit_of_mul_eq_one _ 1 (by decide))

/-- Server signatures for the singleton server set `[wElt 2]`. -/
def wS2Sigs : List (ZMod 11) :=
  [wElt 2].map (fun e => MulZn (hashToGroup wModel e) wScheme.y)

/-- C1: on client set `[e₁, e₂]` and server set `[e₂]` with aligned
signatures of the same scheme and one worker, the sequential baseline
returns `[e₂]` but `SmarterThreadedInteraction` and
`AtomicsThreadedInteraction` return `[e₁]` — the `clientSet[0]` placeholder
append — which is not multiset-equal to the baseline. -/
theorem placeholder_breaks_strategy_equivalence :
    Interaction wModel wScheme wClientSet wClientSigs [wElt 2] wS2Sigs 1
        = some [wElt 2]
      ∧ SmarterThreadedInteraction wModel wScheme wClientSet wClientSigs [wElt 2]
          wS2Sigs 1 1 = some [wElt 1]
      ∧ AtomicsThreadedInteraction wModel wScheme wClientSet wClientSigs [wElt 2]
          wS2Sigs 1 1 = some [wElt 1]
      ∧ ¬ List.Perm ([wElt 1] : List RawElement) [wElt 2] := by
  exact ⟨by decide, by decide, by decide, by decide⟩

/-- Five distinct concrete elements. -/
def wFive : List RawElement := [wElt 1, wElt 2, wElt 3, wElt 4, wElt 5]

/-- Client signatures aligned with `wFive`. -/
def wFiveCSigs : List (ZMod 11) :=
  wFive.map (fun c => MulZn (hashToGroup wModel c) wScheme.x)

/-- Server signatures aligned with `wFive`. -/
def wFiveSSigs : List (ZMod 11) :=
  wFive.map (fun e => MulZn (hashToGroup wModel e) wScheme.y)

/-- C3: at `n = 5`, `numThreads = 4` the ceiling-arithmetic ranges are not
pairwise disjoint — worker 1 gets `[2, 4)` and worker 2 gets `[3, 5)`, so
indices 3 and 4 are processed twice — and on five common elements
`DivisionThreadedInteraction` consequently returns the elements at indices 3
and 4 twice, a multiset different from the sequential baseline (all float64
quantities involved, `5/4` and its multiples, are exactly representable, so
the exact-ceiling idealisation agrees with the source here). -/
theorem division_ranges_overlap_duplicates :
    divisionStart 5 4 2 = 3 ∧ divisionEnd 5 4 1 = 4
      ∧ divisionStart 5 4 2 < divisionEnd 5 4 1
      ∧ DivisionThreadedInteraction wModel wScheme wFive wFiveCSigs wFive wFiveSSigs 1 4
        = some [wElt 1, wElt 2, wElt 3, wElt 4, wElt 4, wElt 5, wElt 5]
      ∧ Interaction wModel wScheme wFive wFiveCSigs wFive wFiveSSigs 1 = some wFive
      ∧ ¬ List.Perm [wElt 1, wElt 2, wElt 3, wElt 4, wElt 4, wElt 5, wElt 5] wFive := by
  exact ⟨by decide, by decide, by decide, by decide, by decide, by decide⟩

/-- C7: `Authorize` is deterministic — it is a pure function of the scheme,
the element and the party, so two calls on the same arguments return the same
Signature bit-for-bit — and its value is `secretKey · H(e)` with
`H = SetFromHash ∘ SHA-256`, where the secret key is `x` for `ClientParty`
and `y` for `ServerParty`. -/
theorem authorize_deterministic_value {q : ℕ} {δ β : Type} (M : Model q δ β)
    (scheme : DualAPSIScheme q) (e : RawElement) :
    Authorize M scheme e ClientParty
        = some (MulZn (M.setFromHash (M.sha e)) scheme.x)
      ∧ Authorize M scheme e ServerParty
        = some (MulZn (M.setFromHash (M.sha e)) scheme.y)
      ∧ Authorize M scheme e ClientParty = Authorize M scheme e ClientParty
      ∧ Authorize M scheme e ServerParty = Authorize M scheme e ServerParty := by
  refine ⟨?_, ?_, rfl, rfl⟩ <;> simp [Authorize, hashToGroup, ClientParty, ServerParty]

/-- C10: the secret-key `switch` in `Authorize` covers only the two declared
roles — for any other `Party` value the secret key stays nil and the scalar
multiplication faults (`none`); for the two declared roles a Signature is
always produced. -/
theorem authorize_invalid_party {q : ℕ} {δ β : Type} (M : Model q δ β)
    (scheme : DualAPSIScheme q) (e : RawElement) (party : Party)
    (h0 : party ≠ ClientParty) (h1 : party ≠ ServerParty) :
    Authorize M scheme e party = none
      ∧ ∀ p : Party, p = ClientParty ∨ p = ServerParty →
          (Authorize M scheme e p).isSome := by
  constructor
  · simp [Authorize, h0, h1]
  · rintro p (rfl | rfl) <;> simp [Authorize, ClientParty, ServerParty]

/-- C10 witness: at party `2` the call faults; at `ClientParty` it
succeeds. -/
theorem authorize_invalid_party_witness :
    Authorize wModel wScheme (wElt 1) 2 = none
      ∧ (Authorize wModel wScheme (wElt 1) ClientParty).isSome :=
  ⟨(authorize_invalid_party wModel wScheme (wElt 1) 2 (by decide) (by decide)).1,
   (authorize_invalid_party wModel wScheme (wElt 1) 2 (by decide) (by decide)).2
     ClientParty (Or.inl rfl)⟩

/-- C9: `Authorize` and every `Interaction` variant leave the scheme fields
(`params`, `pairing`, `P`, `x`, `y`, `xP`, `yP`) and the caller's element
slices and signature arrays unchanged: in the source every write targets a
per-call fresh pbc element or a function-local slice or map, which the
state-transformer embedding reflects by returning the state unchanged. -/
theorem scheme_state_frame {q : ℕ} {δ β : Type} [DecidableEq β] (M : Model q δ β)
    (st : InteractionState q) (elt : RawElement) (party : Party) (r : ZMod q)
    (numThreads : ℕ) :
    (AuthorizeSt M st elt party).1 = st
      ∧ (InteractionSt M st r).1 = st
      ∧ (ThreadedInteractionSt M st r).1 = st
      ∧ (SmarterThreadedInteractionSt M st r numThreads).1 = st
      ∧ (AtomicsThreadedInteractionSt M st r numThreads).1 = st
      ∧ (DivisionThreadedInteractionSt M st r numThreads).1 = st
      ∧ (PrecomputeThreadedInteractionSt M st r).1 = st
      ∧ (AuthorizeSt M st elt party).1.scheme.params = st.scheme.params
      ∧ (AuthorizeSt M st elt party).1.scheme.pairingId = st.scheme.pairingId
      ∧ (AuthorizeSt M st elt party).1.scheme.P = st.scheme.P
      ∧ (AuthorizeSt M st elt party).1.scheme.x = st.scheme.x
      ∧ (AuthorizeSt M st elt party).1.scheme.y = st.scheme.y
      ∧ (AuthorizeSt M st elt party).1.scheme.xP = st.scheme.xP
      ∧ (AuthorizeSt M st elt party).1.scheme.yP = st.scheme.yP
      ∧ (InteractionSt M st r).1.clientSet = st.clientSet
      ∧ (InteractionSt M st r).1.clientSignatures = st.clientSignatures
      ∧ (InteractionSt M st r).1.serverSet = st.serverSet
      ∧ (InteractionSt M st r).1.serverSignatures = st.serverSignatures :=
  ⟨rfl, rfl, rfl, rfl, rfl, rfl, rfl, rfl, rfl, rfl, rfl, rfl, rfl, rfl, rfl,
   rfl, rfl, rfl⟩

/-- C5: by bilinearity, `PowZn (Pair σ xP) r = Pair σ (MulZn xP r)`
(`e(σ, xP)^r = e(σ, r·xP)`), so for the same blinding factor `r` the
precompute pipeline builds the very same server fingerprint set as
`ThreadedInteraction` and returns the same intersection result. -/
theorem precompute_equals_threaded {q : ℕ} {δ β : Type} [DecidableEq β]
    (M : Model q δ β) (scheme : DualAPSIScheme q)
    (clientSet : List RawElement) (clientSignatures : List (ZMod q))
    (serverSet : List RawElement) (serverSignatures : List (ZMod q)) (r : ZMod q) :
    (∀ σ xP : ZMod q, PowZn (Pair σ xP) r = Pair σ (MulZn xP r))
      ∧ precomputeFingerprints M r (precomputePairedSignatures scheme serverSignatures)
        = serverFingerprints M (MulZn scheme.xP r) serverSignatures
      ∧ PrecomputeThreadedInteraction M scheme clientSet clientSignatures serverSet
          serverSignatures r
        = ThreadedInteraction M scheme clientSet clientSignatures serverSet
          serverSignatures r := by
  have hfp : precomputeFingerprints M r (precomputePairedSignatures scheme serverSignatures)
      = serverFingerprints M (MulZn scheme.xP r) serverSignatures := by
    simp [precomputeFingerprints, precomputePairedSignatures, serverFingerprints,
      List.map_map, Function.comp_def, Pair, PowZn, MulZn, mul_assoc]
  refine ⟨fun σ xP => mul_assoc σ xP r, hfp, ?_⟩
  simp only [PrecomputeThreadedInteraction, ThreadedInteraction, hfp]

/-- C6: under an empty client set (with its empty signature array) or an
empty server set (with its empty signature array), every strategy returns an
empty intersection result and performs no out-of-range index access (the run
returns `some`, never the fault value `none`), for every worker count. -/
theorem empty_set_gives_empty_intersection {q : ℕ} {δ β : Type} [DecidableEq β]
    (M : Model q δ β) (scheme : DualAPSIScheme q)
    (clientSet : List RawElement) (clientSignatures : List (ZMod q))
    (serverSet : List RawElement) (serverSignatures : List (ZMod q))
    (r : ZMod q) (numThreads : ℕ) :
    Interaction M scheme [] [] serverSet serverSignatures r = some []
      ∧ Interaction M scheme clientSet clientSignatures [] [] r = some []
      ∧ ThreadedInteraction M scheme [] [] serverSet serverSignatures r = some []
      ∧ ThreadedInteraction M scheme clientSet clientSignatures [] [] r = some []
      ∧ SmarterThreadedInteraction M scheme [] [] serverSet serverSignatures r numThreads
        = some []
      ∧ SmarterThreadedInteraction M scheme clientSet clientSignatures [] [] r numThreads
        = some []
      ∧ AtomicsThreadedInteraction M scheme [] [] serverSet serverSignatures r numThreads
        = some []
      ∧ AtomicsThreadedInteraction M scheme clientSet clientSignatures [] [] r numThreads
        = some []
      ∧ DivisionThreadedInteraction M scheme [] [] serverSet serverSignatures r numThreads
        = some []
      ∧ DivisionThreadedInteraction M scheme clientSet clientSignatures [] [] r numThreads
        = some []
      ∧ PrecomputeThreadedInteraction M scheme [] [] serverSet serverSignatures r = some []
      ∧ PrecomputeThreadedInteraction M scheme clientSet clientSignatures [] [] r
        = some [] := by
  refine ⟨rfl, ?_, rfl, ?_, ?_, ?_, ?_, ?_, ?_, ?_, rfl, ?_⟩
  · simp [Interaction, serverFingerprints, clientPass_nil_hashes]
  · simp [ThreadedInteraction, serverFingerprints, clientPass_nil_hashes]
  · by_cases h : numThreads = 0 <;>
      simp [SmarterThreadedInteraction, h, smarterClientPass]
  · by_cases h : numThreads = 0 <;>
      simp [SmarterThreadedInteraction, h, serverFingerprints, smarterClientPass_nil_hashes]
  · by_cases h : numThreads = 0 <;>
      simp [AtomicsThreadedInteraction, h, smarterClientPass]
  · by_cases h : numThreads = 0 <;>
      simp [AtomicsThreadedInteraction, h, serverFingerprints, smarterClientPass_nil_hashes]
  · by_cases h : numThreads = 0 <;>
      simp [DivisionThreadedInteraction, h, divClientAll, divClientThreads_nil_sigs]
  · by_cases h : numThreads = 0 <;>
      simp [DivisionThreadedInteraction, h, divServerFingerprints_nil, divClientAll,
        divClientThreads_nil_hashes]
  · simp [PrecomputeThreadedInteraction, precomputePairedSignatures,
      precomputeFingerprints, clientPass_nil_hashes]

end APSI
